import Mathlib

/-!
Verification of `publish.py`, the release driver of Sunde.FluentMonads.

The script is embedded shallowly:

* A directory listing is a `List Entry`, in the order `Path.glob` enumerates
  the directory (`os.scandir` order).  Each entry carries its name, its
  creation timestamp (`os.path.getctime`, modelled as a `Nat`) and whether it
  is a directory (`glob` matches entries of any kind).
* `Path(directory).glob('*.nupkg')` is a filter on names.
* `max(packages, key=os.path.getctime)` is a left fold that replaces the
  accumulator only on a strictly larger key, exactly as CPython's `max`.
* `sys.exit` is modelled by returning the exit status; the external world is a
  function `exec : String → Nat` giving the exit status of each shell command.
* `main` returns the trace of observable events (commands handed to the shell
  and messages printed) together with the final process exit status.
-/

namespace Publish

/-- One entry of the scanned directory, as `Path.glob` sees it:
its file name, its creation timestamp and whether it is a directory. -/
structure Entry where
  name : String
  ctime : Nat
  isDir : Bool
deriving Repr, DecidableEq

/-- `fnmatch` of a name against the pattern `*.nupkg`: `*` matches any
(possibly empty) sequence of characters, so a name matches exactly when it
ends with `.nupkg`. -/
def matchesNupkg (name : String) : Bool :=
  List.isSuffixOf ".nupkg".data name.data

/-- `Path(directory).glob('*.nupkg')`: the entries whose name matches the
pattern `*.nupkg`, in directory scan order.
`glob` matches entries of any kind, so `isDir` is not consulted. -/
def globNupkg (listing : List Entry) : List Entry :=
  listing.filter (fun e => matchesNupkg e.name)

/-- `max(packages, key=os.path.getctime)` on the non-empty list
`acc :: rest`: CPython's `max` scans left to right and replaces the current
maximum only when the new key is strictly greater, so the first entry
attaining the maximal key wins. -/
def maxByCtime (acc : Entry) : List Entry → Entry
  | [] => acc
  | e :: es => maxByCtime (if acc.ctime < e.ctime then e else acc) es

/-- `str()` of the `Path` object `Path(directory) / name`. -/
def pathStr (directory : String) (e : Entry) : String :=
  directory ++ "/" ++ e.name

/-- `get_latest_package(directory)`: glob for `*.nupkg`; if none, print an
error and `sys.exit(1)` (modelled as `Except.error` carrying the exit status);
otherwise the entry with maximal creation time, first wins on ties. -/
def get_latest_package (listing : List Entry) : Except Nat Entry :=
  match globNupkg listing with
  | [] => Except.error 1
  | p :: ps => Except.ok (maxByCtime p ps)

/-- An observable event of a run of the script: a command string handed to the
shell via `subprocess.run(command, shell=True)`, or a line printed by
`print`. -/
inductive Event where
  | cmd (command : String)
  | out (msg : String)
deriving Repr, DecidableEq

/-- `run_command(command)`: run the command through the shell; `none` when its
exit status is `0`, otherwise `some code` meaning `sys.exit(code)`. -/
def run_command (exec : String → Nat) (command : String) : Option Nat :=
  if exec command = 0 then none else some (exec command)

/-- The build command string of `main`. -/
def buildCmd : String := "dotnet build -c Release src/"

/-- The pack command string of `main`. -/
def packCmd : String := "dotnet pack -c Release src/"

/-- The directory scanned for packages by `main`. -/
def releaseDir : String := "src/Monads/bin/Release"

/-- The publish command string of `main`: the f-string
`f'dotnet nuget push {package_path} -k {nuget_api_key} -s ...'`,
with path and key interpolated verbatim and unquoted. -/
def pushCmd (packagePath nugetApiKey : String) : String :=
  "dotnet nuget push " ++ packagePath ++ " -k " ++ nugetApiKey ++
    " -s https://api.nuget.org/v3/index.json"

/-- The message printed when `NUGET_API_KEY` is unset or empty. -/
def missingKeyMsg : String :=
  "Error: NUGET_API_KEY environment variable is not set."

/-- The message printed when no `.nupkg` file is found. -/
def noPackageMsg : String := "Error: No .nupkg files found."

/-- `if not nuget_api_key`: true when `os.getenv` returned `None` (the
variable is absent) or the empty string. -/
def keyMissing (key : Option String) : Bool :=
  match key with
  | none => true
  | some k => k == ""

/-- `main()`, after `load_dotenv()`: `key` is the value `os.getenv` returns
for `NUGET_API_KEY`, `exec` gives the exit status of each shell command, and
`listing` is the contents of `src/Monads/bin/Release` once pack has run.
Returns the trace of observable events and the process exit status
(`0` when `main` falls off the end). -/
def main (key : Option String) (exec : String → Nat) (listing : List Entry) :
    List Event × Nat :=
  if keyMissing key then
    ([Event.out missingKeyMsg], 1)
  else
    let k := key.getD ""
    match run_command exec buildCmd with
    | some c => ([Event.cmd buildCmd], c)
    | none =>
      match run_command exec packCmd with
      | some c => ([Event.cmd buildCmd, Event.cmd packCmd], c)
      | none =>
        match get_latest_package listing with
        | Except.error c =>
            ([Event.cmd buildCmd, Event.cmd packCmd, Event.out noPackageMsg], c)
        | Except.ok p =>
          let push := pushCmd (pathStr releaseDir p) k
          match run_command exec push with
          | some c => ([Event.cmd buildCmd, Event.cmd packCmd, Event.cmd push], c)
          | none => ([Event.cmd buildCmd, Event.cmd packCmd, Event.cmd push], 0)

/-- A world in which every external command exits with status `0`. -/
def execZero : String → Nat := fun _ => 0

/-- A directory holding one matching package file, `pkg-1.0.0.nupkg`. -/
def demoListing : List Entry := [⟨"pkg-1.0.0.nupkg", 42, false⟩]

/-! ### Properties of the selection fold (`max` with `key=os.path.getctime`) -/

theorem maxByCtime_mem (l : List Entry) : ∀ a : Entry, maxByCtime a l ∈ a :: l := by
  induction l with
  | nil => intro a; simp [maxByCtime]
  | cons e es ih =>
    intro a
    have h := ih (if a.ctime < e.ctime then e else a)
    simp only [maxByCtime]
    rcases List.mem_cons.mp h with h1 | h1
    · rw [h1]
      split
      · exact List.mem_cons_of_mem _ (List.mem_cons_self _ _)
      · exact List.mem_cons_self _ _
    · exact List.mem_cons_of_mem _ (List.mem_cons_of_mem _ h1)

theorem maxByCtime_le (l : List Entry) :
    ∀ a x : Entry, x ∈ a :: l → x.ctime ≤ (maxByCtime a l).ctime := by
  induction l with
  | nil =>
    intro a x hx
    rcases List.mem_cons.mp hx with h1 | h1
    · subst h1; exact le_refl _
    · exact absurd h1 (List.not_mem_nil x)
  | cons e es ih =>
    intro a x hx
    have hacc : (if a.ctime < e.ctime then e else a).ctime ≤
        (maxByCtime (if a.ctime < e.ctime then e else a) es).ctime :=
      ih _ _ (List.mem_cons_self _ _)
    simp only [maxByCtime]
    rcases List.mem_cons.mp hx with h1 | h1
    · subst h1
      refine le_trans ?_ hacc
      split
      · next hc => exact le_of_lt hc
      · exact le_refl _
    · rcases List.mem_cons.mp h1 with h2 | h2
      · subst h2
        refine le_trans ?_ hacc
        split
        · exact le_refl _
        · next hc => exact le_of_not_lt hc
      · exact ih _ _ (List.mem_cons_of_mem _ h2)

theorem maxByCtime_find (l : List Entry) :
    ∀ a : Entry,
      (a :: l).find? (fun e => e.ctime == (maxByCtime a l).ctime) =
        some (maxByCtime a l) := by
  induction l with
  | nil =>
    intro a
    simp [maxByCtime]
  | cons e es ih =>
    intro a
    by_cases hc : a.ctime < e.ctime
    · have hr := ih e
      have hle : e.ctime ≤ (maxByCtime e es).ctime :=
        maxByCtime_le es e e (List.mem_cons_self _ _)
      have ha : ¬ (a.ctime == (maxByCtime e es).ctime) = true := by
        simp only [beq_iff_eq]
        omega
      simp only [maxByCtime, if_pos hc]
      rw [List.find?_cons_of_neg (p := fun x : Entry => x.ctime == (maxByCtime e es).ctime) _ ha]
      exact hr
    · have hr := ih a
      have hle : a.ctime ≤ (maxByCtime a es).ctime :=
        maxByCtime_le es a a (List.mem_cons_self _ _)
      simp only [maxByCtime, if_neg hc]
      by_cases ha : a.ctime = (maxByCtime a es).ctime
      · have hpa : (a.ctime == (maxByCtime a es).ctime) = true := beq_iff_eq.mpr ha
        have h1 : List.find? (fun e' => e'.ctime == (maxByCtime a es).ctime)
            (a :: es) = some a := List.find?_cons_of_pos _ hpa
        have h2 : a = maxByCtime a es := Option.some.inj (hr.symm.trans h1) |>.symm
        rw [List.find?_cons_of_pos (p := fun x : Entry => x.ctime == (maxByCtime a es).ctime) _ hpa]
        exact congrArg some h2
      · have hpa : ¬ (a.ctime == (maxByCtime a es).ctime) = true := by
          simp only [beq_iff_eq]
          exact ha
        have h1 : List.find? (fun e' => e'.ctime == (maxByCtime a es).ctime) es =
            some (maxByCtime a es) := by
          have h0 := hr
          rwa [List.find?_cons_of_neg
            (p := fun x : Entry => x.ctime == (maxByCtime a es).ctime) _ hpa] at h0
        have hae : e.ctime ≤ a.ctime := le_of_not_lt hc
        have hlt : a.ctime < (maxByCtime a es).ctime := lt_of_le_of_ne hle ha
        have hpe : ¬ (e.ctime == (maxByCtime a es).ctime) = true := by
          simp only [beq_iff_eq]
          omega
        rw [List.find?_cons_of_neg (p := fun x : Entry => x.ctime == (maxByCtime a es).ctime) _ hpa,
          List.find?_cons_of_neg (p := fun x : Entry => x.ctime == (maxByCtime a es).ctime) _ hpe]
        exact h1

theorem get_latest_package_eq (m : Entry) (ms listing : List Entry)
    (hg : globNupkg listing = m :: ms) :
    get_latest_package listing = Except.ok (maxByCtime m ms) := by
  simp [get_latest_package, hg]

/-! ### The three command strings are pairwise distinguishable -/

theorem append_ne_of_take (l r m : List Char) (n : Nat) (hl : n ≤ l.length)
    (hne : l.take n ≠ m.take n) : l ++ r ≠ m := by
  intro h
  apply hne
  rw [← List.take_append_of_le_length hl, h]

theorem pushCmd_data (path apiKey : String) :
    (pushCmd path apiKey).data =
      "dotnet nuget push ".data ++
        (path.data ++ (" -k ".data ++ (apiKey.data ++
          " -s https://api.nuget.org/v3/index.json".data))) := by
  simp [pushCmd, String.data_append, List.append_assoc]

theorem pushCmd_ne_buildCmd (path apiKey : String) :
    pushCmd path apiKey ≠ buildCmd := by
  intro h
  have hd := congrArg String.data h
  rw [pushCmd_data] at hd
  exact append_ne_of_take _ _ _ 8 (by decide) (by decide) hd

theorem pushCmd_ne_packCmd (path apiKey : String) :
    pushCmd path apiKey ≠ packCmd := by
  intro h
  have hd := congrArg String.data h
  rw [pushCmd_data] at hd
  exact append_ne_of_take _ _ _ 8 (by decide) (by decide) hd

/-! ### Unfolding `main` under the various worlds -/

theorem keyMissing_false (k : String) (hne : k ≠ "") :
    keyMissing (some k) = false := by
  show (k == "") = false
  exact beq_eq_false_iff_ne.mpr hne

theorem main_after_pack (k : String) (exec : String → Nat)
    (listing : List Entry) (p : Entry) (hne : k ≠ "")
    (hb : exec buildCmd = 0) (hp : exec packCmd = 0)
    (hsel : get_latest_package listing = Except.ok p) :
    main (some k) exec listing =
      ([Event.cmd buildCmd, Event.cmd packCmd,
        Event.cmd (pushCmd (pathStr releaseDir p) k)],
       if exec (pushCmd (pathStr releaseDir p) k) = 0 then 0
       else exec (pushCmd (pathStr releaseDir p) k)) := by
  have hkm := keyMissing_false k hne
  by_cases hq : exec (pushCmd (pathStr releaseDir p) k) = 0 <;>
    simp [main, hkm, run_command, hb, hp, hsel, hq]

/-! ### Claims -/

/-- C1: for every directory with at least one entry matching `*.nupkg`,
`get_latest_package` returns exactly one path, that path is among the
matching candidates, and its creation timestamp is maximal among them. -/
theorem get_latest_package_selects_max (listing : List Entry)
    (h : globNupkg listing ≠ []) :
    ∃ p : Entry, get_latest_package listing = Except.ok p ∧
      p ∈ globNupkg listing ∧
      ∀ q ∈ globNupkg listing, q.ctime ≤ p.ctime := by
  cases hg : globNupkg listing with
  | nil => exact absurd hg h
  | cons m ms =>
    refine ⟨maxByCtime m ms, get_latest_package_eq m ms listing hg, ?_, ?_⟩
    · exact maxByCtime_mem ms m
    · intro q hq
      exact maxByCtime_le ms m q hq

theorem get_latest_package_selects_max_witness :
    globNupkg [⟨"a.nupkg", 5, false⟩, ⟨"b.nupkg", 9, false⟩,
        ⟨"c.txt", 100, false⟩] ≠ [] ∧
    ∃ p : Entry,
      get_latest_package [⟨"a.nupkg", 5, false⟩, ⟨"b.nupkg", 9, false⟩,
          ⟨"c.txt", 100, false⟩] = Except.ok p ∧
      p ∈ globNupkg [⟨"a.nupkg", 5, false⟩, ⟨"b.nupkg", 9, false⟩,
          ⟨"c.txt", 100, false⟩] ∧
      ∀ q ∈ globNupkg [⟨"a.nupkg", 5, false⟩, ⟨"b.nupkg", 9, false⟩,
          ⟨"c.txt", 100, false⟩], q.ctime ≤ p.ctime :=
  ⟨by decide, get_latest_package_selects_max _ (by decide)⟩

/-- C8: the tie-break is deterministic: among the matching entries,
`get_latest_package` returns the first entry in glob scan order whose
creation timestamp attains the maximum, because Python's `max` keeps the
first element attaining the maximal key. -/
theorem get_latest_package_first_max (listing : List Entry)
    (h : globNupkg listing ≠ []) :
    ∃ p : Entry, get_latest_package listing = Except.ok p ∧
      (∀ q ∈ globNupkg listing, q.ctime ≤ p.ctime) ∧
      (globNupkg listing).find? (fun e => e.ctime == p.ctime) = some p := by
  cases hg : globNupkg listing with
  | nil => exact absurd hg h
  | cons m ms =>
    refine ⟨maxByCtime m ms, get_latest_package_eq m ms listing hg, ?_, ?_⟩
    · intro q hq
      exact maxByCtime_le ms m q hq
    · exact maxByCtime_find ms m

theorem get_latest_package_first_max_witness :
    globNupkg [⟨"a.nupkg", 7, false⟩, ⟨"b.nupkg", 7, false⟩] ≠ [] ∧
    ∃ p : Entry,
      get_latest_package [⟨"a.nupkg", 7, false⟩, ⟨"b.nupkg", 7, false⟩] =
        Except.ok p ∧
      (∀ q ∈ globNupkg [⟨"a.nupkg", 7, false⟩, ⟨"b.nupkg", 7, false⟩],
        q.ctime ≤ p.ctime) ∧
      (globNupkg [⟨"a.nupkg", 7, false⟩, ⟨"b.nupkg", 7, false⟩]).find?
        (fun e => e.ctime == p.ctime) = some p :=
  ⟨by decide, get_latest_package_first_max _ (by decide)⟩

/-- C9: `glob('*.nupkg')` matches directory entries of any kind, so in a
directory whose only matching entries are subdirectories, selection still
succeeds with a subdirectory, whose path is then handed to the publish
step. -/
theorem get_latest_package_accepts_directories (listing : List Entry)
    (d : Entry) (hd : d ∈ listing) (_hdir : d.isDir = true)
    (hmatch : matchesNupkg d.name = true)
    (honly : ∀ e ∈ listing, matchesNupkg e.name = true → e.isDir = true) :
    ∃ p : Entry, get_latest_package listing = Except.ok p ∧ p.isDir = true ∧
      ∀ (k : String) (exec : String → Nat), k ≠ "" →
        exec buildCmd = 0 → exec packCmd = 0 →
          Event.cmd (pushCmd (pathStr releaseDir p) k) ∈
            (main (some k) exec listing).1 := by
  have hmem : d ∈ globNupkg listing := List.mem_filter.mpr ⟨hd, hmatch⟩
  cases hg : globNupkg listing with
  | nil => rw [hg] at hmem; exact absurd hmem (List.not_mem_nil d)
  | cons m ms =>
    have hpmem : maxByCtime m ms ∈ globNupkg listing := by
      rw [hg]
      exact maxByCtime_mem ms m
    have hpl := List.mem_filter.mp hpmem
    refine ⟨maxByCtime m ms, get_latest_package_eq m ms listing hg,
      honly _ hpl.1 hpl.2, ?_⟩
    intro k exec hne hb hp
    rw [main_after_pack k exec listing (maxByCtime m ms) hne hb hp
      (get_latest_package_eq m ms listing hg)]
    simp

theorem get_latest_package_accepts_directories_witness :
    (⟨"inner.nupkg", 3, true⟩ ∈ ([⟨"inner.nupkg", 3, true⟩] : List Entry) ∧
      Entry.isDir ⟨"inner.nupkg", 3, true⟩ = true ∧
      matchesNupkg "inner.nupkg" = true ∧
      ∀ e ∈ ([⟨"inner.nupkg", 3, true⟩] : List Entry),
        matchesNupkg e.name = true → e.isDir = true) ∧
    ∃ p : Entry,
      get_latest_package [⟨"inner.nupkg", 3, true⟩] = Except.ok p ∧
      p.isDir = true ∧
      ∀ (k : String) (exec : String → Nat), k ≠ "" →
        exec buildCmd = 0 → exec packCmd = 0 →
          Event.cmd (pushCmd (pathStr releaseDir p) k) ∈
            (main (some k) exec [⟨"inner.nupkg", 3, true⟩]).1 :=
  ⟨⟨by decide, by decide, by decide, by decide⟩,
    get_latest_package_accepts_directories [⟨"inner.nupkg", 3, true⟩]
      ⟨"inner.nupkg", 3, true⟩ (by decide) (by decide) (by decide) (by decide)⟩

/-- C2: when `NUGET_API_KEY` is absent or empty, `main` prints the missing
credential message and exits with status `1`, and no external command is
handed to the shell — the trace holds no `cmd` event at all. -/
theorem main_missing_credential (key : Option String) (exec : String → Nat)
    (listing : List Entry) (h : keyMissing key = true) :
    main key exec listing = ([Event.out missingKeyMsg], 1) ∧
    ∀ c : String, Event.cmd c ∉ (main key exec listing).1 := by
  have hm : main key exec listing = ([Event.out missingKeyMsg], 1) := by
    simp [main, h]
  refine ⟨hm, ?_⟩
  intro c hc
  rw [hm] at hc
  simp at hc

theorem main_missing_credential_witness :
    keyMissing none = true ∧
    (main none execZero [] = ([Event.out missingKeyMsg], 1) ∧
      ∀ c : String, Event.cmd c ∉ (main none execZero []).1) :=
  ⟨by decide, main_missing_credential none execZero [] (by decide)⟩

/-- C3: a failing external command makes `run_command` exit the process with
the command's own status code, `main` therefore exits with the first failing
step's code, and when every step succeeds the process exits with status
`0`. -/
theorem exit_code_propagation (key : Option String) (k : String)
    (exec : String → Nat) (listing : List Entry)
    (hk : key = some k) (hne : k ≠ "") :
    (∀ command : String, exec command ≠ 0 →
        run_command exec command = some (exec command)) ∧
    (exec buildCmd ≠ 0 → (main key exec listing).2 = exec buildCmd) ∧
    (exec buildCmd = 0 → exec packCmd ≠ 0 →
        (main key exec listing).2 = exec packCmd) ∧
    (exec buildCmd = 0 → exec packCmd = 0 → globNupkg listing ≠ [] →
        ∃ p : Entry, get_latest_package listing = Except.ok p ∧
          (main key exec listing).2 =
            (if exec (pushCmd (pathStr releaseDir p) k) = 0 then 0
             else exec (pushCmd (pathStr releaseDir p) k))) := by
  subst hk
  have hkm := keyMissing_false k hne
  refine ⟨?_, ?_, ?_, ?_⟩
  · intro command h
    simp [run_command, h]
  · intro h
    simp [main, hkm, run_command, h]
  · intro hb h
    simp [main, hkm, run_command, hb, h]
  · intro hb hp hg
    cases hgl : globNupkg listing with
    | nil => exact absurd hgl hg
    | cons m ms =>
      refine ⟨maxByCtime m ms, get_latest_package_eq m ms listing hgl, ?_⟩
      rw [main_after_pack k exec listing (maxByCtime m ms) hne hb hp
        (get_latest_package_eq m ms listing hgl)]

theorem exit_code_propagation_witness :
    (some "k1" : Option String) = some "k1" ∧ ("k1" : String) ≠ "" ∧
    ((∀ command : String, execZero command ≠ 0 →
        run_command execZero command = some (execZero command)) ∧
    (execZero buildCmd ≠ 0 →
        (main (some "k1") execZero demoListing).2 = execZero buildCmd) ∧
    (execZero buildCmd = 0 → execZero packCmd ≠ 0 →
        (main (some "k1") execZero demoListing).2 = execZero packCmd) ∧
    (execZero buildCmd = 0 → execZero packCmd = 0 →
        globNupkg demoListing ≠ [] →
        ∃ p : Entry, get_latest_package demoListing = Except.ok p ∧
          (main (some "k1") execZero demoListing).2 =
            (if execZero (pushCmd (pathStr releaseDir p) "k1") = 0 then 0
             else execZero (pushCmd (pathStr releaseDir p) "k1")))) :=
  ⟨rfl, by decide,
    exit_code_propagation (some "k1") "k1" execZero demoListing rfl (by decide)⟩

/-- C4: when the directory holds no matching file (after a successful build
and pack, with a credential present), `get_latest_package` fails with exit
status `1`, `main` prints the error and exits `1`, and the publish command is
never handed to the shell. -/
theorem main_no_artifact (key : Option String) (k : String)
    (exec : String → Nat) (listing : List Entry)
    (hk : key = some k) (hne : k ≠ "")
    (hb : exec buildCmd = 0) (hp : exec packCmd = 0)
    (hg : globNupkg listing = []) :
    get_latest_package listing = Except.error 1 ∧
    main key exec listing =
      ([Event.cmd buildCmd, Event.cmd packCmd, Event.out noPackageMsg], 1) ∧
    ∀ path apiKey : String,
      Event.cmd (pushCmd path apiKey) ∉ (main key exec listing).1 := by
  subst hk
  have hkm := keyMissing_false k hne
  have hsel : get_latest_package listing = Except.error 1 := by
    simp [get_latest_package, hg]
  have hm : main (some k) exec listing =
      ([Event.cmd buildCmd, Event.cmd packCmd, Event.out noPackageMsg], 1) := by
    simp [main, hkm, run_command, hb, hp, hsel]
  refine ⟨hsel, hm, ?_⟩
  intro path apiKey hc
  rw [hm] at hc
  simp only [List.mem_cons, List.not_mem_nil, or_false] at hc
  rcases hc with hc | hc | hc
  · exact pushCmd_ne_buildCmd path apiKey (Event.cmd.inj hc)
  · exact pushCmd_ne_packCmd path apiKey (Event.cmd.inj hc)
  · exact Event.noConfusion hc

theorem main_no_artifact_witness :
    (some "k2" : Option String) = some "k2" ∧ ("k2" : String) ≠ "" ∧
    execZero buildCmd = 0 ∧ execZero packCmd = 0 ∧
    globNupkg [⟨"notes.txt", 4, false⟩] = [] ∧
    (get_latest_package [⟨"notes.txt", 4, false⟩] = Except.error 1 ∧
    main (some "k2") execZero [⟨"notes.txt", 4, false⟩] =
      ([Event.cmd buildCmd, Event.cmd packCmd, Event.out noPackageMsg], 1) ∧
    ∀ path apiKey : String,
      Event.cmd (pushCmd path apiKey) ∉
        (main (some "k2") execZero [⟨"notes.txt", 4, false⟩]).1) :=
  ⟨rfl, by decide, rfl, rfl, by decide,
    main_no_artifact (some "k2") "k2" execZero [⟨"notes.txt", 4, false⟩]
      rfl (by decide) rfl rfl (by decide)⟩

/-- C5: in a successful run `main` performs exactly build, then pack, then
artifact selection, then publish parameterized with the selected path and the
credential — the trace is exactly the three commands in that order, with the
publish command built from the selection's result. -/
theorem main_success_sequence (key : Option String) (k : String)
    (exec : String → Nat) (listing : List Entry)
    (hk : key = some k) (hne : k ≠ "")
    (hb : exec buildCmd = 0) (hp : exec packCmd = 0)
    (hg : globNupkg listing ≠ []) :
    ∃ p : Entry, get_latest_package listing = Except.ok p ∧
      (exec (pushCmd (pathStr releaseDir p) k) = 0 →
        main key exec listing =
          ([Event.cmd buildCmd, Event.cmd packCmd,
            Event.cmd (pushCmd (pathStr releaseDir p) k)], 0)) := by
  subst hk
  cases hgl : globNupkg listing with
  | nil => exact absurd hgl hg
  | cons m ms =>
    refine ⟨maxByCtime m ms, get_latest_package_eq m ms listing hgl, ?_⟩
    intro hq
    rw [main_after_pack k exec listing (maxByCtime m ms) hne hb hp
      (get_latest_package_eq m ms listing hgl), if_pos hq]

theorem main_success_sequence_witness :
    (some "k3" : Option String) = some "k3" ∧ ("k3" : String) ≠ "" ∧
    execZero buildCmd = 0 ∧ execZero packCmd = 0 ∧
    globNupkg demoListing ≠ [] ∧
    ∃ p : Entry, get_latest_package demoListing = Except.ok p ∧
      (execZero (pushCmd (pathStr releaseDir p) "k3") = 0 →
        main (some "k3") execZero demoListing =
          ([Event.cmd buildCmd, Event.cmd packCmd,
            Event.cmd (pushCmd (pathStr releaseDir p) "k3")], 0)) :=
  ⟨rfl, by decide, rfl, rfl, by decide,
    main_success_sequence (some "k3") "k3" execZero demoListing
      rfl (by decide) rfl rfl (by decide)⟩

/-- C6: when the build command fails, `main` stops there: the trace holds
only the build command — no pack command, no selection error output, no
publish command — and the process exits with the build's status code. -/
theorem main_build_failure (key : Option String) (k : String)
    (exec : String → Nat) (listing : List Entry)
    (hk : key = some k) (hne : k ≠ "") (hb : exec buildCmd ≠ 0) :
    main key exec listing = ([Event.cmd buildCmd], exec buildCmd) ∧
    Event.cmd packCmd ∉ (main key exec listing).1 ∧
    Event.out noPackageMsg ∉ (main key exec listing).1 ∧
    ∀ path apiKey : String,
      Event.cmd (pushCmd path apiKey) ∉ (main key exec listing).1 := by
  subst hk
  have hkm := keyMissing_false k hne
  have hm : main (some k) exec listing =
      ([Event.cmd buildCmd], exec buildCmd) := by
    simp [main, hkm, run_command, hb]
  refine ⟨hm, ?_, ?_, ?_⟩
  · intro hc
    rw [hm] at hc
    simp only [List.mem_singleton] at hc
    exact absurd (Event.cmd.inj hc) (by decide)
  · intro hc
    rw [hm] at hc
    simp only [List.mem_singleton] at hc
    exact Event.noConfusion hc
  · intro path apiKey hc
    rw [hm] at hc
    simp only [List.mem_singleton] at hc
    exact pushCmd_ne_buildCmd path apiKey (Event.cmd.inj hc)

theorem main_build_failure_witness :
    (some "k4" : Option String) = some "k4" ∧ ("k4" : String) ≠ "" ∧
    (fun _ : String => 7) buildCmd ≠ 0 ∧
    (main (some "k4") (fun _ => 7) [] = ([Event.cmd buildCmd], (fun _ : String => 7) buildCmd) ∧
    Event.cmd packCmd ∉ (main (some "k4") (fun _ => 7) []).1 ∧
    Event.out noPackageMsg ∉ (main (some "k4") (fun _ => 7) []).1 ∧
    ∀ path apiKey : String,
      Event.cmd (pushCmd path apiKey) ∉ (main (some "k4") (fun _ => 7) []).1) :=
  ⟨rfl, by decide, by decide,
    main_build_failure (some "k4") "k4" (fun _ => 7) [] rfl (by decide) (by decide)⟩

/-- C7: the end-to-end run with credential `abc123` and a directory holding
the single artifact `pkg-1.0.0.nupkg`, all commands succeeding: the trace is
build, pack, publish; the publish command occurs exactly once and its
argument string contains both the artifact path and the credential; the
process exits with status `0`. -/
theorem main_end_to_end :
    main (some "abc123") execZero demoListing =
      ([Event.cmd buildCmd, Event.cmd packCmd,
        Event.cmd (pushCmd "src/Monads/bin/Release/pkg-1.0.0.nupkg" "abc123")],
       0) ∧
    (main (some "abc123") execZero demoListing).1.count
      (Event.cmd (pushCmd "src/Monads/bin/Release/pkg-1.0.0.nupkg" "abc123"))
        = 1 ∧
    (∃ a b : String,
      pushCmd "src/Monads/bin/Release/pkg-1.0.0.nupkg" "abc123" =
        a ++ "pkg-1.0.0.nupkg" ++ b) ∧
    (∃ a b : String,
      pushCmd "src/Monads/bin/Release/pkg-1.0.0.nupkg" "abc123" =
        a ++ "abc123" ++ b) :=
  ⟨by decide, by decide,
    ⟨"dotnet nuget push src/Monads/bin/Release/",
     " -k abc123 -s https://api.nuget.org/v3/index.json", by decide⟩,
    ⟨"dotnet nuget push src/Monads/bin/Release/pkg-1.0.0.nupkg -k ",
     " -s https://api.nuget.org/v3/index.json", by decide⟩⟩

/-- C10: the command string handed to the shell for the publish step is
exactly the concatenation
`dotnet nuget push <path> -k <key> -s https://api.nuget.org/v3/index.json`,
with the selected path and the credential interpolated verbatim and
unquoted. -/
theorem main_push_command_string (key : Option String) (k : String)
    (exec : String → Nat) (listing : List Entry)
    (hk : key = some k) (hne : k ≠ "")
    (hb : exec buildCmd = 0) (hp : exec packCmd = 0)
    (hg : globNupkg listing ≠ []) :
    ∃ p : Entry, get_latest_package listing = Except.ok p ∧
      Event.cmd ("dotnet nuget push " ++ pathStr releaseDir p ++ " -k " ++ k ++
          " -s https://api.nuget.org/v3/index.json") ∈
        (main key exec listing).1 := by
  subst hk
  cases hgl : globNupkg listing with
  | nil => exact absurd hgl hg
  | cons m ms =>
    refine ⟨maxByCtime m ms, get_latest_package_eq m ms listing hgl, ?_⟩
    rw [main_after_pack k exec listing (maxByCtime m ms) hne hb hp
      (get_latest_package_eq m ms listing hgl)]
    simp [pushCmd]

theorem main_push_command_string_witness :
    (some "k5" : Option String) = some "k5" ∧ ("k5" : String) ≠ "" ∧
    execZero buildCmd = 0 ∧ execZero packCmd = 0 ∧
    globNupkg demoListing ≠ [] ∧
    ∃ p : Entry, get_latest_package demoListing = Except.ok p ∧
      Event.cmd ("dotnet nuget push " ++ pathStr releaseDir p ++ " -k " ++
          "k5" ++ " -s https://api.nuget.org/v3/index.json") ∈
        (main (some "k5") execZero demoListing).1 :=
  ⟨rfl, by decide, rfl, rfl, by decide,
    main_push_command_string (some "k5") "k5" execZero demoListing
      rfl (by decide) rfl rfl (by decide)⟩

end Publish
